/- Verification of the admission and content-policy pipeline of
   astrbot_plugin_comfyui_pro (main.py).

   Text is modelled as `List Char`.  The Python regular expressions used by the
   plugin are alternations of escaped literal terms (with ASCII word-boundary
   lookarounds) and a fixed CJK tag pair, so they are embedded as direct
   scanning functions with the same leftmost / first-alternative semantics.
   Case folding models Python's `str.lower` / `re.IGNORECASE` on the ASCII
   range, the only range the plugin ever puts into a pattern
   (`_is_ascii_term` filters all terms to code points < 128).
   Whitespace is the ASCII whitespace set matched by `\s` / `str.strip()`
   on ASCII text. -/
import Mathlib

/-! ### Character helpers -/

/-- ASCII lower-casing of one character, as Python's `str.lower` acts on the
ASCII range (used by `str(v).lower()` and `w.lower()` in main.py). -/
def asciiLower (c : Char) : Char :=
  if 65 ≤ c.toNat ∧ c.toNat ≤ 90 then Char.ofNat (c.toNat + 32) else c

/-- The character class `[A-Za-z0-9_]` from `_build_policy_patterns`. -/
def isWordChar (c : Char) : Bool :=
  decide ((65 ≤ c.toNat ∧ c.toNat ≤ 90) ∨ (97 ≤ c.toNat ∧ c.toNat ≤ 122) ∨
    (48 ≤ c.toNat ∧ c.toNat ≤ 57) ∨ c = '_')

/-- ASCII whitespace, as stripped by `str.strip()` / matched by `\s`. -/
def pyIsSpace (c : Char) : Bool :=
  decide (c = ' ' ∨ c = '\t' ∨ c = '\n' ∨ c = '\r' ∨ c.toNat = 11 ∨ c.toNat = 12)

/-- The wrapper characters stripped from an extracted prompt
(`p.strip('`"\'“”‘’')` in `_extract_prompt_before_filter`). -/
def wrapChars : List Char := "`\"'“”‘’".toList

/-- Remove characters satisfying `p` from both ends (Python `str.strip`). -/
def stripEndsWhile (p : Char → Bool) (xs : List Char) : List Char :=
  ((xs.dropWhile p).reverse.dropWhile p).reverse

/-- Python `str.strip()` (no argument) on ASCII text. -/
def pyTrim (xs : List Char) : List Char := stripEndsWhile pyIsSpace xs

/-- Python `str.strip('`"\'“”‘’')`. -/
def stripWrap (xs : List Char) : List Char :=
  stripEndsWhile (fun c => wrapChars.contains c) xs

/-! ### Generic list helpers -/

/-- `startsList p s` : `p` is an initial run of `s` (literal match). -/
def startsList : List Char → List Char → Bool
  | [], _ => true
  | _ :: _, [] => false
  | p :: ps, c :: cs => p == c && startsList ps cs

/-- Case-insensitive literal match of `pat` at the start of `s`
(ASCII folding, as `re.IGNORECASE` acts on the plugin's ASCII terms). -/
def ciStarts (pat s : List Char) : Bool :=
  startsList (pat.map asciiLower) (s.map asciiLower)

/-- Split `s` at the first (leftmost) occurrence of the literal `pat`,
returning the part before it and the part after it. -/
def splitOnFirst (pat : List Char) : List Char → Option (List Char × List Char)
  | [] => if startsList pat [] then some ([], []) else none
  | c :: rest =>
    if startsList pat (c :: rest) then some ([], (c :: rest).drop pat.length)
    else
      match splitOnFirst pat rest with
      | some (pre, post) => some (c :: pre, post)
      | none => none

/-- First `some` produced by `f` over the list, in order (the regex
alternation preference: earlier alternatives win at a fixed position). -/
def firstHit (f : List Char → Option (List Char)) : List (List Char) → Option (List Char)
  | [] => none
  | t :: ts =>
    match f t with
    | some m => some m
    | none => firstHit f ts

/-- Keep the first occurrence of every `key`-class, in order.  With `key = id`
this is Python's `list(dict.fromkeys(...))`; with ASCII lower-casing it is the
`seen` / `result` loop of `_find_sensitive_words`. -/
def dedupByAux (key : List Char → List Char) :
    List (List Char) → List (List Char) → List (List Char)
  | _, [] => []
  | seen, w :: ws =>
    if key w ∈ seen then dedupByAux key seen ws
    else w :: dedupByAux key (key w :: seen) ws

/-- `dedupByAux` started with nothing seen. -/
def dedupBy (key : List Char → List Char) (l : List (List Char)) : List (List Char) :=
  dedupByAux key [] l

/-! ### Response segmenter (`_extract_prompt_before_filter`) -/

/-- The literal open tag `<提示词>`. -/
def openTagL : List Char := "<提示词>".toList

/-- The literal close tag `</提示词>`. -/
def closeTagL : List Char := "</提示词>".toList

/-- One pass computing both `re.findall(r'<提示词>(.*?)</提示词>', s, DOTALL)`
(second component) and `re.split` on the same pattern (first component).
Non-greedy capture: content runs to the first close tag after an open tag.
Fuel `s.length` always suffices: every recursion step consumes at least the
two tags (11 characters) of the remaining text. -/
def scanTagsAux : Nat → List Char → List (List Char) × List (List Char)
  | 0, s => ([s], [])
  | fuel + 1, s =>
    match splitOnFirst openTagL s with
    | none => ([s], [])
    | some (pre, rest1) =>
      match splitOnFirst closeTagL rest1 with
      | none => ([s], [])
      | some (content, rest2) =>
        let r := scanTagsAux fuel rest2
        (pre :: r.1, content :: r.2)

/-- Interstitial chunks and captured tag contents of a completion text. -/
def scanTags (s : List Char) : List (List Char) × List (List Char) :=
  scanTagsAux s.length s

/-- The literal label `提示词是`. -/
def labelChars : List Char := "提示词是".toList

/-- Drop one leading `:` or `：` if present. -/
def dropColon : List Char → List Char
  | [] => []
  | c :: rest => if c == ':' || c == '：' then rest else c :: rest

/-- `re.sub(r'^提示词是\s*[:：]?\s*', '', p)` : remove a leading label,
optional whitespace, optional colon, optional whitespace. -/
def dropLabel (p : List Char) : List Char :=
  if startsList labelChars p then
    ((p.drop labelChars.length).dropWhile pyIsSpace |> dropColon).dropWhile pyIsSpace
  else p

/-- Full cleaning of one captured region: label strip, whitespace strip,
wrapper-character strip, whitespace strip. -/
def cleanPrompt (p : List Char) : List Char :=
  pyTrim (stripWrap (pyTrim (dropLabel p)))

/-- A segment of a parsed completion: narrative text or an image prompt. -/
inductive Segment where
  | text (content : List Char)
  | prompt (content : List Char)
deriving DecidableEq

/-- `true` exactly on prompt segments. -/
def Segment.isPromptSeg : Segment → Bool
  | .text _ => false
  | .prompt _ => true

/-- The chunk/prompt walk of the multi-image branch: per chunk, trim it,
emit a text segment if non-empty, then emit the next unconsumed prompt. -/
def walkSegments : List (List Char) → List (List Char) → List Segment
  | [], _ => []
  | part :: rest, prompts =>
    let t := pyTrim part
    let txt : List Segment := if t.isEmpty then [] else [Segment.text t]
    match prompts with
    | [] => txt ++ walkSegments rest []
    | q :: qs => txt ++ Segment.prompt q :: walkSegments rest qs

/-- Outcome of `_extract_prompt_before_filter`: nothing stashed, a single
extracted prompt, the first of several prompts (multi-image mode off), or a
segment list (multi-image mode on). -/
inductive ExtractResult where
  | noExtract
  | single (p : List Char)
  | firstOnly (p : List Char)
  | multi (segs : List Segment)
deriving DecidableEq

/-- The usable prompts of a completion: captured regions, cleaned, with the
ones that clean to nothing discarded. -/
def cleanedOf (fullText : List Char) : List (List Char) :=
  ((scanTags fullText).2.map cleanPrompt).filter (fun p => !p.isEmpty)

/-- `_extract_prompt_before_filter` as a function of the completion text and
the multi-image flag. -/
def extractPrompt (multiImageMode : Bool) (fullText : List Char) : ExtractResult :=
  let parts := (scanTags fullText).1
  let caps := (scanTags fullText).2
  if caps.isEmpty then .noExtract
  else
    match cleanedOf fullText with
    | [] => .noExtract
    | [p] => .single p
    | p :: q :: rest =>
      if multiImageMode then
        let segs := walkSegments parts (p :: q :: rest)
        if segs.isEmpty then .noExtract else .multi segs
      else .firstOnly p

/-- A delivery unit: leading text (possibly empty) and an optional prompt. -/
structure DeliveryPair where
  text : List Char
  prompt : Option (List Char)
deriving DecidableEq

/-- The re-pairing loop of `_auto_paint_from_llm`: a text segment replaces the
pending buffer, a prompt segment emits `(buffer, prompt)` and resets it, and a
non-empty trailing buffer emits one final prompt-less pair. -/
def pairsAux : List Char → List Segment → List DeliveryPair
  | cur, [] => if cur.isEmpty then [] else [⟨cur, none⟩]
  | _, Segment.text c :: rest => pairsAux c rest
  | cur, Segment.prompt c :: rest => ⟨cur, some c⟩ :: pairsAux [] rest

/-- Re-pairing started with an empty pending buffer. -/
def buildPairs (segs : List Segment) : List DeliveryPair := pairsAux [] segs

/-! ### Compiled matcher (`_build_policy_patterns` / `_find_sensitive_words`) -/

/-- The lookaround check `(?<![A-Za-z0-9_])` / `(?![A-Za-z0-9_])` : the
character at the given boundary is absent or not a word character. -/
def boundaryOk : Option Char → Bool
  | none => true
  | some c => !isWordChar c

/-- The word-term branch of the compiled pattern at a fixed position:
`(?<![A-Za-z0-9_])(?:w1|w2|...)(?![A-Za-z0-9_])` with the regex's
backtracking over the alternatives. -/
def tryWordAt (wordTerms : List (List Char)) (prev : Option Char) (s : List Char) :
    Option (List Char) :=
  if boundaryOk prev then
    firstHit
      (fun w =>
        if ciStarts w s && boundaryOk (s.drop w.length).head? then some (s.take w.length)
        else none)
      wordTerms
  else none

/-- The phrase-term branch: each multi-token term as a literal
case-insensitive alternative. -/
def tryPhraseAt (phraseTerms : List (List Char)) (s : List Char) : Option (List Char) :=
  firstHit (fun p => if ciStarts p s then some (s.take p.length) else none) phraseTerms

/-- One attempt of the whole alternation at a fixed position: the word branch
precedes the phrase branch, as in the compiled pattern. -/
def tryAt (wt pt : List (List Char)) (prev : Option Char) (s : List Char) :
    Option (List Char) :=
  match tryWordAt wt prev s with
  | some m => some m
  | none => tryPhraseAt pt s

/-- `finditer` over the text: leftmost matches, scanning resumes after each
match.  `prev` is the character just before the current position (for the
lookbehind).  Fuel `s.length` always suffices: every step consumes at least
one character. -/
def scanAux (wt pt : List (List Char)) : Nat → Option Char → List Char → List (List Char)
  | 0, _, _ => []
  | _ + 1, _, [] => []
  | fuel + 1, prev, c :: rest =>
    match tryAt wt pt prev (c :: rest) with
    | none => scanAux wt pt fuel (some c) rest
    | some m =>
      if m.isEmpty then m :: scanAux wt pt fuel (some c) rest
      else m :: scanAux wt pt fuel m.getLast? ((c :: rest).drop m.length)

/-- All raw matches (`m.group(0)` of each `finditer` hit, original casing). -/
def scanMatches (wt pt : List (List Char)) (s : List Char) : List (List Char) :=
  scanAux wt pt s.length none s

/-- The loaded sensitive-word lexicon: category name to term list. -/
abbrev Lexicon := List (String × List (List Char))

/-- `self.lexicon.get(cat, [])`. -/
def lexGet : Lexicon → String → List (List Char)
  | [], _ => []
  | (k, v) :: rest, cat => if k = cat then v else lexGet rest cat

/-- `_is_ascii_term`: every code point below 128. -/
def isAsciiTerm (t : List Char) : Bool := t.all (fun c => c.toNat < 128)

/-- The collection loop of `_build_policy_patterns`: walk the activated
categories, skip empty and non-ASCII terms, and partition on the presence of
an ASCII space into word terms and phrase terms. -/
def collectTerms (lexicon : Lexicon) : List String → List (List Char) × List (List Char)
  | [] => ([], [])
  | cat :: cats =>
    let ts := lexGet lexicon cat
    let ws := ts.filter (fun t => !t.isEmpty && isAsciiTerm t && !t.contains ' ')
    let ps := ts.filter (fun t => !t.isEmpty && isAsciiTerm t && t.contains ' ')
    let r := collectTerms lexicon cats
    (ws ++ r.1, ps ++ r.2)

/-- Compile one tier: dedup both partitions by exact term
(`list(dict.fromkeys(...))`; `re.escape` is injective so deduplicating the
escaped strings deduplicates the terms), and produce no pattern at all when
there are no terms (`ascii_pat = None`). -/
def buildPattern (lexicon : Lexicon) (cats : List String) :
    Option (List (List Char) × List (List Char)) :=
  let c := collectTerms lexicon cats
  let wt := dedupBy id c.1
  let pt := dedupBy id c.2
  if wt.isEmpty && pt.isEmpty then none else some (wt, pt)

/-- `self.policies["none"]` : no categories. -/
def noneCats : List String := []

/-- `self.policies["lite"]` : the fixed subset. -/
def liteCats : List String := ["legacy_lite"]

/-- `self.policies["full"]` : the fixed category set written in `__init__`
(a Python `set`; its iteration order is interpreter-determined, and every
theorem below is robust to the order of this list). -/
def fullCats : List String :=
  ["legacy_lite", "minors", "sexual_violence", "bestiality_incest_necrophilia",
   "violence_gore", "scat_urine_vomit", "self_harm", "sexual", "nudity", "fetish"]

/-- `self._policy_patterns` after `_build_policy_patterns`. -/
def policyPatterns (lexicon : Lexicon) :
    List (String × Option (List (List Char) × List (List Char))) :=
  [("none", buildPattern lexicon noneCats),
   ("lite", buildPattern lexicon liteCats),
   ("full", buildPattern lexicon fullCats)]

/-- Association-list lookup (`dict.get`, `None` when absent). -/
def assocGet {α : Type} : List (String × α) → String → Option α
  | [], _ => none
  | (k, v) :: rest, s => if k = s then some v else assocGet rest s

/-- Python `str.lower()` on the ASCII range. -/
def lowerStr (s : String) : String := String.mk (s.data.map asciiLower)

/-- The `finditer` loop of `_find_sensitive_words` before deduplication:
empty text and the `none` policy return nothing, a missing or empty pattern
returns nothing, otherwise all raw matches in text order. -/
def rawMatches (lexicon : Lexicon) (policy : String) (text : List Char) :
    List (List Char) :=
  if text.isEmpty then []
  else if policy = "none" then []
  else
    match assocGet (policyPatterns lexicon) (lowerStr policy) with
    | none => []
    | some none => []
    | some (some pat) => scanMatches pat.1 pat.2 text

/-- `_find_sensitive_words`: raw matches deduplicated by lower-cased term,
first occurrence (and its casing) kept. -/
def findSensitiveWords (lexicon : Lexicon) (policy : String) (text : List Char) :
    List (List Char) :=
  dedupBy (fun w => w.map asciiLower) (rawMatches lexicon policy text)

/-- The matcher of a tier whose activated category set is `cats`: the same
compile-and-search pipeline as `_build_policy_patterns` /
`_find_sensitive_words`, parametrised by the category set that
`self.policies` assigns to the tier. -/
def findByCats (lexicon : Lexicon) (cats : List String) (text : List Char) :
    List (List Char) :=
  if text.isEmpty then []
  else
    match buildPattern lexicon cats with
    | none => []
    | some pat => dedupBy (fun w => w.map asciiLower) (scanMatches pat.1 pat.2 text)

/-- `_check_sensitive` given the found matches: pass with an empty list when
nothing matched or the user is an admin with the sensitive bypass, otherwise
fail carrying the matches. -/
def checkSensitive (isAdmin bypassSensitive : Bool) (found : List (List Char)) :
    Bool × List (List Char) :=
  if found.isEmpty then (true, [])
  else if isAdmin && bypassSensitive then (true, [])
  else (false, found)

/-- The value normalisation of `__init__`:
`{str(k): str(v).lower() for k, v in group_policies.items()}`. -/
def normGroupPolicies (raw : List (String × String)) : List (String × String) :=
  raw.map (fun kv => (kv.1, lowerStr kv.2))

/-- `_get_policy_for_event`: group override when present, else the
scope-type default. -/
def getPolicyForEvent (groupPolicies : List (String × String))
    (defaultGroupPolicy defaultPrivatePolicy : String)
    (isGroupMessage : Bool) (gid : Option String) : String :=
  if isGroupMessage then
    match gid with
    | none => defaultGroupPolicy
    | some g =>
      match assocGet groupPolicies g with
      | some p => p
      | none => defaultGroupPolicy
  else defaultPrivatePolicy

/-! ### Cooldown (`_check_cooldown`) -/

/-- Python `int()` on an exact rational: truncation toward zero. -/
def pyInt (q : ℚ) : Int := q.num.tdiv q.den

/-- `self.user_cooldowns.get(user_id, 0)`. -/
def lookupTime : List (String × ℚ) → String → ℚ
  | [], _ => 0
  | (k, v) :: rest, u => if k = u then v else lookupTime rest u

/-- `self.user_cooldowns[user_id] = current_time`. -/
def dictSet : List (String × ℚ) → String → ℚ → List (String × ℚ)
  | [], u, t => [(u, t)]
  | (k, v) :: rest, u, t => if k = u then (u, t) :: rest else (k, v) :: dictSet rest u t

/-- `_check_cooldown`: returns `((passed, remaining seconds), new state)`.
Timestamps are exact rationals standing for the real-valued clock. -/
def checkCooldown (cooldownSeconds : ℚ) (userCooldowns : List (String × ℚ))
    (userId : String) (isAdmin bypassCooldown : Bool) (currentTime : ℚ) :
    (Bool × Int) × List (String × ℚ) :=
  if isAdmin && bypassCooldown then ((true, 0), userCooldowns)
  else
    let lastTime := lookupTime userCooldowns userId
    let elapsed := currentTime - lastTime
    if elapsed < cooldownSeconds then
      ((false, pyInt (cooldownSeconds - elapsed)), userCooldowns)
    else ((true, 0), dictSet userCooldowns userId currentTime)

/-! ### Rejection messages of the three content-policy call paths -/

/-- `_handle_paint_logic`: `tip = "、".join(sensitive[:5])`. -/
def handlePaintTip (sensitive : List String) : String :=
  String.intercalate "、" (sensitive.take 5)

/-- `_handle_paint_logic`: `extra = f"等 {len(sensitive)} 个" if len(sensitive) > 5 else ""`. -/
def handlePaintExtra (sensitive : List String) : String :=
  if 5 < sensitive.length then "等 " ++ toString sensitive.length ++ " 个" else ""

/-- The user-visible rejection of `_handle_paint_logic`. -/
def handlePaintMsg (sensitive : List String) : String :=
  "🚫 检测到敏感词：" ++ handlePaintTip sensitive ++ handlePaintExtra sensitive ++ "，无法生成图片"

/-- `comfyui_txt2img`: `tip = "、".join(sensitive[:5])`. -/
def txt2imgTip (sensitive : List String) : String :=
  String.intercalate "、" (sensitive.take 5)

/-- The user-visible rejection of `comfyui_txt2img` (no remainder count). -/
def txt2imgMsg (sensitive : List String) : String :=
  "🚫 检测到敏感词：" ++ txt2imgTip sensitive ++ "，无法生成"

/-- `_auto_paint_from_llm`: `tip = "、".join(sensitive[:3])`. -/
def autoPaintTip (sensitive : List String) : String :=
  String.intercalate "、" (sensitive.take 3)

/-- The user-visible rejection of one batch item in `_auto_paint_from_llm`. -/
def autoPaintMsg (textContent : String) (imgIdx : Nat) (sensitive : List String) : String :=
  textContent ++ "\n🚫 [图片" ++ toString imgIdx ++ "] 检测到敏感词：" ++ autoPaintTip sensitive

/-! ### Statement vocabulary -/

/-- Equality of strings up to ASCII case. -/
abbrev ciEq (a b : List Char) : Prop := a.map asciiLower = b.map asciiLower

/-- The character immediately left of a position: last of the local run
before it, else the character carried from further left. -/
def lastO (prev : Option Char) (pre : List Char) : Option Char :=
  match pre.getLast? with
  | some c => some c
  | none => prev

/-- Some alternative of the pattern matches somewhere in `text` (with `prev`
the character just before `text`): a word term with both boundaries clear, or
a phrase term as a plain case-insensitive substring. -/
def HitAt (wt pt : List (List Char)) (prev : Option Char) (text : List Char) : Prop :=
  ∃ pre occ post, text = pre ++ occ ++ post ∧ occ ≠ [] ∧
    ((∃ w ∈ wt, ciEq occ w ∧ boundaryOk (lastO prev pre) = true ∧
        boundaryOk post.head? = true) ∨
     (∃ p ∈ pt, ciEq occ p))

/-- `term` occurs in `text` with neither adjacent character a word character. -/
def ValidWordOcc (term text : List Char) : Prop :=
  ∃ pre occ post, text = pre ++ occ ++ post ∧ ciEq occ term ∧
    boundaryOk pre.getLast? = true ∧ boundaryOk post.head? = true

/-- `term` occurs in `text` as a case-insensitive substring. -/
def CiSubOcc (term text : List Char) : Prop :=
  ∃ pre occ post, text = pre ++ occ ++ post ∧ ciEq occ term

/-- Adjacent segments differ in type. -/
def segAltRel (a b : Segment) : Prop := a.isPromptSeg ≠ b.isPromptSeg

/-! ### Helper lemmas -/

theorem memOfTail {α : Type} {x : α} : ∀ {l : List α}, x ∈ l.tail → x ∈ l
  | [], h => by simp at h
  | _ :: _, h => List.mem_cons_of_mem _ h

theorem lookupTime_dictSet (st : List (String × ℚ)) (u : String) (t : ℚ) :
    lookupTime (dictSet st u t) u = t := by
  induction st with
  | nil => simp [dictSet, lookupTime]
  | cons kv rest ih =>
    obtain ⟨k, v⟩ := kv
    by_cases h : k = u
    · simp [dictSet, h, lookupTime]
    · simp [dictSet, h, lookupTime, ih]

/-! ### Claim C4 -/

/-- Claim C4: for a user who is not an administrator with cooldown bypass, the
cooldown check fails iff the elapsed time since the recorded last-accepted
timestamp is strictly below the configured duration; on failure it reports the
whole-second truncation of (duration − elapsed) and leaves the state
unchanged; otherwise it passes and records the current time for the user. -/
theorem claim_C4 (cooldownSeconds : ℚ) (st : List (String × ℚ)) (userId : String)
    (isAdmin bypassCooldown : Bool) (currentTime : ℚ)
    (hnb : (isAdmin && bypassCooldown) = false) :
    ((checkCooldown cooldownSeconds st userId isAdmin bypassCooldown currentTime).1.1 = false ↔
      currentTime - lookupTime st userId < cooldownSeconds) ∧
    (currentTime - lookupTime st userId < cooldownSeconds →
      (checkCooldown cooldownSeconds st userId isAdmin bypassCooldown currentTime).1.2 =
        pyInt (cooldownSeconds - (currentTime - lookupTime st userId)) ∧
      (checkCooldown cooldownSeconds st userId isAdmin bypassCooldown currentTime).2 = st) ∧
    (cooldownSeconds ≤ currentTime - lookupTime st userId →
      (checkCooldown cooldownSeconds st userId isAdmin bypassCooldown currentTime).1 =
        (true, 0) ∧
      (checkCooldown cooldownSeconds st userId isAdmin bypassCooldown currentTime).2 =
        dictSet st userId currentTime ∧
      lookupTime (checkCooldown cooldownSeconds st userId isAdmin bypassCooldown
        currentTime).2 userId = currentTime) := by
  by_cases h : currentTime - lookupTime st userId < cooldownSeconds
  · refine ⟨by simp [checkCooldown, hnb, h], fun _ => by simp [checkCooldown, hnb, h],
      fun hle => absurd h (not_lt.mpr hle)⟩
  · refine ⟨by simp [checkCooldown, hnb, h], fun hlt => absurd hlt h,
      fun _ => by simp [checkCooldown, hnb, h, lookupTime_dictSet]⟩

/-- Witness for C4: with duration 60 and an action accepted at time 100, a
second action at 110 is rejected (remaining 50) leaving the state unchanged,
and an action at 160 is accepted and resets the timer. -/
theorem claim_C4_witness :
    (checkCooldown 60 [("u", 100)] "u" false false 110).1.1 = false ∧
    (checkCooldown 60 [("u", 100)] "u" false false 110).1.2 = 50 ∧
    (checkCooldown 60 [("u", 100)] "u" false false 110).2 = [("u", 100)] ∧
    (checkCooldown 60 [("u", 100)] "u" false false 160).1 = (true, 0) ∧
    (checkCooldown 60 [("u", 100)] "u" false false 160).2 = [("u", 160)] := by
  have h1 := claim_C4 60 [("u", 100)] "u" false false 110 (by decide)
  have h2 := claim_C4 60 [("u", 100)] "u" false false 160 (by decide)
  have e1 : (110 : ℚ) - lookupTime [("u", 100)] "u" < 60 := by
    simp [lookupTime]; norm_num
  have e2 : (60 : ℚ) ≤ (160 : ℚ) - lookupTime [("u", 100)] "u" := by
    simp [lookupTime]; norm_num
  refine ⟨h1.1.mpr e1, ?_, (h1.2.1 e1).2, ?_, ?_⟩
  · rw [(h1.2.1 e1).1]
    simp [lookupTime, pyInt]
    norm_num
  · exact (h2.2.2 e2).1
  · rw [(h2.2.2 e2).2.1]
    simp [dictSet]

/-! ### Claim C9 -/

theorem pairsAuxOverwrite (a b q : List Char) (rest : List Segment) :
    ∀ (pre : List Segment) (cur : List Char),
      pairsAux cur (pre ++ Segment.text a :: Segment.text b :: Segment.prompt q :: rest) =
        pairsAux cur (pre ++ Segment.text b :: Segment.prompt q :: rest) := by
  intro pre
  induction pre with
  | nil => intro cur; simp [pairsAux]
  | cons s pre ih =>
    intro cur
    cases s with
    | text c => simpa [pairsAux] using ih c
    | prompt c => simp [pairsAux, ih]

/-- Claim C9: the delivery re-pairing walk: a text segment replaces the
pending buffer, a prompt segment emits the pair (buffer, prompt) and resets
the buffer, a non-empty trailing buffer emits one final prompt-less pair, and
consequently only the most recent text immediately before a prompt is
attached to it. -/
theorem claim_C9 (cur a b q : List Char) (rest pre : List Segment) :
    (pairsAux cur (Segment.text a :: rest) = pairsAux a rest) ∧
    (pairsAux cur (Segment.prompt q :: rest) = ⟨cur, some q⟩ :: pairsAux [] rest) ∧
    (cur ≠ [] → pairsAux cur [] = [⟨cur, none⟩]) ∧
    (pairsAux ([] : List Char) [] = []) ∧
    (buildPairs (pre ++ Segment.text a :: Segment.text b :: Segment.prompt q :: rest) =
      buildPairs (pre ++ Segment.text b :: Segment.prompt q :: rest)) := by
  refine ⟨rfl, rfl, fun h => ?_, rfl, pairsAuxOverwrite a b q rest pre []⟩
  simp [pairsAux, h]

/-- Witness for C9 at concrete segments. -/
theorem claim_C9_witness :
    (pairsAux "x".toList (Segment.text "a".toList :: [Segment.prompt "p".toList]) =
      pairsAux "a".toList [Segment.prompt "p".toList]) ∧
    (pairsAux "a".toList (Segment.prompt "p".toList :: []) =
      ⟨"a".toList, some "p".toList⟩ :: pairsAux [] []) ∧
    (pairsAux "t".toList [] = [⟨"t".toList, none⟩]) ∧
    (buildPairs ([] ++ Segment.text "a".toList :: Segment.text "b".toList ::
        Segment.prompt "p".toList :: []) =
      buildPairs ([] ++ Segment.text "b".toList :: Segment.prompt "p".toList :: [])) := by
  have h := claim_C9 "x".toList "a".toList "b".toList "p".toList
    [Segment.prompt "p".toList] []
  have h2 := claim_C9 "a".toList "a".toList "b".toList "p".toList ([] : List Segment) []
  have h3 := claim_C9 "t".toList "a".toList "b".toList "p".toList ([] : List Segment) []
  have h4 := claim_C9 "x".toList "a".toList "b".toList "p".toList ([] : List Segment) []
  exact ⟨h.1, h2.2.1, h3.2.2.1 (by decide), h4.2.2.2.2⟩

/-! ### Claim C8 -/

/-- Claim C8: when exactly one usable prompt survives cleaning, the segmenter
returns it as a single extracted prompt and produces no segment list,
whether or not multi-image mode is enabled. -/
theorem claim_C8 (multiImageMode : Bool) (fullText : List Char) (p : List Char)
    (h : cleanedOf fullText = [p]) :
    extractPrompt multiImageMode fullText = ExtractResult.single p := by
  by_cases hc : (scanTags fullText).2.isEmpty
  · exfalso
    have : cleanedOf fullText = [] := by
      unfold cleanedOf
      rw [List.isEmpty_iff.mp hc]
      rfl
    rw [h] at this
    exact List.cons_ne_nil _ _ this
  · unfold extractPrompt
    rw [if_neg (by simp [hc]), h]

/-- Witness for C8: the spec's example, in both multi-image modes. -/
theorem claim_C8_witness :
    extractPrompt true "draw this <提示词>a cat</提示词> please".toList =
      ExtractResult.single "a cat".toList ∧
    extractPrompt false "draw this <提示词>a cat</提示词> please".toList =
      ExtractResult.single "a cat".toList :=
  ⟨claim_C8 true _ _ (by decide), claim_C8 false _ _ (by decide)⟩

/-! ### Claim C2 -/

/-- Claim C2 counterexample: with six matched terms, the paint-command path
appends the total count (6), not the count of the terms beyond the first five
(1), and the multi-image auto-paint path lists only the first three matched
terms instead of the first five. -/
theorem claim_C2_counterexample :
    handlePaintExtra ["a", "b", "c", "d", "e", "f"] = "等 6 个" ∧
    handlePaintExtra ["a", "b", "c", "d", "e", "f"] ≠
      "等 " ++ toString ((["a", "b", "c", "d", "e", "f"] : List String).length - 5) ++ " 个" ∧
    autoPaintTip ["a", "b", "c", "d", "e", "f"] ≠
      String.intercalate "、" ((["a", "b", "c", "d", "e", "f"] : List String).take 5) ∧
    txt2imgMsg ["a", "b", "c", "d", "e", "f"] =
      "🚫 检测到敏感词：a、b、c、d、e，无法生成" := by
  refine ⟨by decide, by decide, by decide, by decide⟩

/-- Claim C2 (amended): the rejection message of the `/画图` command path
lists the first `min 5 n` matched terms and, when more than five matched,
appends the total count `n` (not a remainder count); the `comfyui_txt2img`
tool path lists the first `min 5 n` terms with no count at all; the
multi-image auto-paint path lists only the first `min 3 n` terms with no
count. -/
theorem claim_C2_amended (s : List String) (t : String) (i : Nat) :
    (s.length ≤ 5 →
      handlePaintMsg s = "🚫 检测到敏感词：" ++ String.intercalate "、" s ++ "，无法生成图片") ∧
    (5 < s.length →
      handlePaintMsg s = "🚫 检测到敏感词：" ++ String.intercalate "、" (s.take 5) ++
        ("等 " ++ toString s.length ++ " 个") ++ "，无法生成图片") ∧
    (txt2imgMsg s =
      "🚫 检测到敏感词：" ++ String.intercalate "、" (s.take 5) ++ "，无法生成") ∧
    (autoPaintMsg t i s =
      t ++ "\n🚫 [图片" ++ toString i ++ "] 检测到敏感词：" ++
        String.intercalate "、" (s.take 3)) := by
  refine ⟨fun h => ?_, fun h => ?_, rfl, rfl⟩
  · simp [handlePaintMsg, handlePaintTip, handlePaintExtra, not_lt.mpr h,
      List.take_of_length_le h]
  · simp [handlePaintMsg, handlePaintTip, handlePaintExtra, h]

/-- Witness for C2 (amended) at a one-term and a six-term list. -/
theorem claim_C2_amended_witness :
    handlePaintMsg ["x"] =
      "🚫 检测到敏感词：" ++ String.intercalate "、" ["x"] ++ "，无法生成图片" ∧
    handlePaintMsg ["a", "b", "c", "d", "e", "f"] =
      "🚫 检测到敏感词：" ++
        String.intercalate "、" ((["a", "b", "c", "d", "e", "f"] : List String).take 5) ++
        ("等 " ++ toString (["a", "b", "c", "d", "e", "f"] : List String).length ++ " 个") ++
        "，无法生成图片" :=
  ⟨(claim_C2_amended ["x"] "t" 1).1 (by decide),
   (claim_C2_amended ["a", "b", "c", "d", "e", "f"] "t" 1).2.1 (by decide)⟩

/-! ### Character-case lemmas (for Claim C10) -/

theorem asciiLowerToNat (c : Char) (h : 65 ≤ c.toNat ∧ c.toNat ≤ 90) :
    (asciiLower c).toNat = c.toNat + 32 := by
  have hv : (c.toNat + 32).isValidChar := Or.inl (by omega)
  unfold asciiLower
  rw [if_pos h, Char.ofNat, dif_pos hv]
  rfl

theorem asciiLowerFix (c : Char) (h : ¬ (65 ≤ c.toNat ∧ c.toNat ≤ 90)) :
    asciiLower c = c := by
  unfold asciiLower
  rw [if_neg h]

theorem asciiLowerIdem (c : Char) : asciiLower (asciiLower c) = asciiLower c := by
  by_cases h : 65 ≤ c.toNat ∧ c.toNat ≤ 90
  · have h2 := asciiLowerToNat c h
    apply asciiLowerFix
    rw [h2]
    omega
  · rw [asciiLowerFix c h, asciiLowerFix c h]

theorem lowerStrIdem (s : String) : lowerStr (lowerStr s) = lowerStr s := by
  unfold lowerStr
  have hd : (String.mk (s.data.map asciiLower)).data = s.data.map asciiLower := rfl
  rw [hd, List.map_map]
  have hf : asciiLower ∘ asciiLower = asciiLower := funext asciiLowerIdem
  rw [hf]

theorem assocGetNorm (raw : List (String × String)) (g p : String)
    (h : assocGet (normGroupPolicies raw) g = some p) : ∃ v, p = lowerStr v := by
  induction raw with
  | nil => simp [normGroupPolicies, assocGet] at h
  | cons kv rest ih =>
    obtain ⟨k, v⟩ := kv
    by_cases hk : k = g
    · refine ⟨v, ?_⟩
      simp [normGroupPolicies, assocGet, hk] at h
      exact h.symm
    · exact ih (by simpa [normGroupPolicies, assocGet, hk] using h)

theorem getPolicyLowered (raw : List (String × String)) (a b : String) (g : Bool)
    (gid : Option String) :
    ∃ v, getPolicyForEvent (normGroupPolicies raw) (lowerStr a) (lowerStr b) g gid =
      lowerStr v := by
  unfold getPolicyForEvent
  cases g with
  | false => exact ⟨b, by simp⟩
  | true =>
    cases gid with
    | none => exact ⟨a, by simp⟩
    | some gv =>
      cases hA : assocGet (normGroupPolicies raw) gv with
      | none => exact ⟨a, by simp [hA]⟩
      | some p =>
        obtain ⟨v, hv⟩ := assocGetNorm raw gv p hA
        exact ⟨v, by simp [hA, hv]⟩

/-! ### Claim C10 -/

/-- Claim C10: when the tier resolved for an event (an explicitly configured
group policy or a scope default, all lower-cased at startup) is any string
other than "none", "lite" or "full", the sensitive-word search returns the
empty list, the content-policy check passes, and the behaviour coincides with
the `none` tier. -/
theorem claim_C10 (rawGroupPolicies : List (String × String))
    (rawDefaultGroup rawDefaultPrivate : String) (lexicon : Lexicon) (text : List Char)
    (isGroupMessage : Bool) (gid : Option String) (isAdmin bypassSensitive : Bool)
    (hpolicy : getPolicyForEvent (normGroupPolicies rawGroupPolicies)
        (lowerStr rawDefaultGroup) (lowerStr rawDefaultPrivate) isGroupMessage gid ∉
      (["none", "lite", "full"] : List String)) :
    findSensitiveWords lexicon
      (getPolicyForEvent (normGroupPolicies rawGroupPolicies) (lowerStr rawDefaultGroup)
        (lowerStr rawDefaultPrivate) isGroupMessage gid) text = [] ∧
    checkSensitive isAdmin bypassSensitive
      (findSensitiveWords lexicon
        (getPolicyForEvent (normGroupPolicies rawGroupPolicies) (lowerStr rawDefaultGroup)
          (lowerStr rawDefaultPrivate) isGroupMessage gid) text) = (true, []) ∧
    findSensitiveWords lexicon
      (getPolicyForEvent (normGroupPolicies rawGroupPolicies) (lowerStr rawDefaultGroup)
        (lowerStr rawDefaultPrivate) isGroupMessage gid) text =
      findSensitiveWords lexicon "none" text := by
  set policy := getPolicyForEvent (normGroupPolicies rawGroupPolicies)
    (lowerStr rawDefaultGroup) (lowerStr rawDefaultPrivate) isGroupMessage gid with hpol
  obtain ⟨v, hv⟩ := getPolicyLowered rawGroupPolicies rawDefaultGroup rawDefaultPrivate
    isGroupMessage gid
  have hlow : lowerStr policy = policy := by rw [hpol, hv, lowerStrIdem]
  have h1 : policy ≠ "none" := fun h => hpolicy (by simp [h])
  have h2 : policy ≠ "lite" := fun h => hpolicy (by simp [h])
  have h3 : policy ≠ "full" := fun h => hpolicy (by simp [h])
  have hraw : rawMatches lexicon policy text = [] := by
    unfold rawMatches
    by_cases ht : text.isEmpty
    · rw [if_pos ht]
    · rw [if_neg ht, if_neg h1]
      have hget : assocGet (policyPatterns lexicon) (lowerStr policy) = none := by
        rw [hlow]
        simp [policyPatterns, assocGet, Ne.symm h1, Ne.symm h2, Ne.symm h3]
      rw [hget]
  have hfind : findSensitiveWords lexicon policy text = [] := by
    unfold findSensitiveWords
    rw [hraw]
    rfl
  have hnone : findSensitiveWords lexicon "none" text = [] := by
    unfold findSensitiveWords rawMatches
    by_cases ht : text.isEmpty
    · rw [if_pos ht]; rfl
    · rw [if_neg ht, if_pos rfl]; rfl
  refine ⟨hfind, ?_, by rw [hfind, hnone]⟩
  rw [hfind]
  rfl

/-- Witness for C10: a group whose configured policy is the misspelled tier
"OFF" passes the content check on text that the `full` tier would reject. -/
theorem claim_C10_witness :
    findSensitiveWords [("legacy_lite", ["cat".toList])]
      (getPolicyForEvent (normGroupPolicies [("g1", "OFF")]) (lowerStr "none")
        (lowerStr "none") true (some "g1")) "a cat sat".toList = [] ∧
    checkSensitive false false
      (findSensitiveWords [("legacy_lite", ["cat".toList])]
        (getPolicyForEvent (normGroupPolicies [("g1", "OFF")]) (lowerStr "none")
          (lowerStr "none") true (some "g1")) "a cat sat".toList) = (true, []) ∧
    findSensitiveWords [("legacy_lite", ["cat".toList])]
      (getPolicyForEvent (normGroupPolicies [("g1", "OFF")]) (lowerStr "none")
        (lowerStr "none") true (some "g1")) "a cat sat".toList =
      findSensitiveWords [("legacy_lite", ["cat".toList])] "none" "a cat sat".toList :=
  claim_C10 [("g1", "OFF")] "none" "none" [("legacy_lite", ["cat".toList])]
    "a cat sat".toList true (some "g1") false false (by decide)

/-! ### Literal-match and alternation lemmas -/

theorem startsListTake : ∀ (p s : List Char), startsList p s = true →
    s.take p.length = p ∧ p.length ≤ s.length := by
  intro p
  induction p with
  | nil => intro s _; simp
  | cons a ps ih =>
    intro s h
    cases s with
    | nil => simp [startsList] at h
    | cons c cs =>
      simp only [startsList, Bool.and_eq_true, beq_iff_eq] at h
      obtain ⟨rfl, h2⟩ := h
      obtain ⟨ht, hl⟩ := ih cs h2
      refine ⟨?_, by simpa using hl⟩
      simp [List.take_succ_cons, ht]

theorem startsListAppend : ∀ (p t : List Char), startsList p (p ++ t) = true := by
  intro p t
  induction p with
  | nil => rfl
  | cons a ps ih => simp [startsList, ih]

theorem ciEqLength {a b : List Char} (h : ciEq a b) : a.length = b.length := by
  have := congrArg List.length h
  simpa using this

theorem ciStartsTake {w s : List Char} (h : ciStarts w s = true) :
    ciEq (s.take w.length) w ∧ w.length ≤ s.length := by
  obtain ⟨ht, hl⟩ := startsListTake _ _ h
  constructor
  · unfold ciEq
    rw [List.length_map, ← List.map_take] at ht
    exact ht
  · simpa using hl

theorem ciStartsOfCiEq {occ w : List Char} (post : List Char) (h : ciEq occ w) :
    ciStarts w (occ ++ post) = true := by
  unfold ciStarts
  rw [List.map_append, h]
  exact startsListAppend _ _

theorem firstHitSomeEx {f : List Char → Option (List Char)} :
    ∀ {l : List (List Char)} {m : List Char}, firstHit f l = some m →
      ∃ t ∈ l, f t = some m := by
  intro l
  induction l with
  | nil => intro m h; simp [firstHit] at h
  | cons a as ih =>
    intro m h
    cases hfa : f a with
    | some b =>
      simp only [firstHit, hfa] at h
      exact ⟨a, List.mem_cons_self a as, by rw [hfa, h]⟩
    | none =>
      simp only [firstHit, hfa] at h
      obtain ⟨t, ht, hft⟩ := ih h
      exact ⟨t, List.mem_cons_of_mem _ ht, hft⟩

theorem firstHitNeNone {f : List Char → Option (List Char)} :
    ∀ {l : List (List Char)} {t m : List Char}, t ∈ l → f t = some m →
      firstHit f l ≠ none := by
  intro l
  induction l with
  | nil => intro t m ht; simp at ht
  | cons a as ih =>
    intro t m ht hft
    cases hfa : f a with
    | some b => simp [firstHit, hfa]
    | none =>
      simp only [firstHit, hfa]
      rcases List.mem_cons.mp ht with rfl | hmem
      · rw [hfa] at hft; exact absurd hft (by simp)
      · exact ih hmem hft

/-! ### Deduplication lemmas -/

theorem dedupNotSeen {key : List Char → List Char} :
    ∀ (l seen : List (List Char)) (r : List Char),
      r ∈ dedupByAux key seen l → key r ∉ seen := by
  intro l
  induction l with
  | nil => intro seen r h; simp [dedupByAux] at h
  | cons w ws ih =>
    intro seen r h
    rw [dedupByAux] at h
    by_cases hc : key w ∈ seen
    · rw [if_pos hc] at h
      exact ih seen r h
    · rw [if_neg hc] at h
      rcases List.mem_cons.mp h with rfl | hmem
      · exact hc
      · have := ih (key w :: seen) r hmem
        exact fun hs => this (List.mem_cons_of_mem _ hs)

theorem dedupFirstSplit {key : List Char → List Char} :
    ∀ (l seen : List (List Char)) (r : List Char),
      r ∈ dedupByAux key seen l →
      ∃ pre post, l = pre ++ r :: post ∧ ∀ x ∈ pre, key x ≠ key r := by
  intro l
  induction l with
  | nil => intro seen r h; simp [dedupByAux] at h
  | cons w ws ih =>
    intro seen r h
    rw [dedupByAux] at h
    by_cases hc : key w ∈ seen
    · rw [if_pos hc] at h
      obtain ⟨pre, post, heq, hpre⟩ := ih seen r h
      have hr : key r ∉ seen := dedupNotSeen ws seen r h
      refine ⟨w :: pre, post, by rw [heq]; rfl, ?_⟩
      intro x hx
      rcases List.mem_cons.mp hx with rfl | hmem
      · exact fun he => hr (he ▸ hc)
      · exact hpre x hmem
    · rw [if_neg hc] at h
      rcases List.mem_cons.mp h with rfl | hmem
      · exact ⟨[], ws, rfl, by simp⟩
      · obtain ⟨pre, post, heq, hpre⟩ := ih (key w :: seen) r hmem
        have hr : key r ∉ key w :: seen := dedupNotSeen ws (key w :: seen) r hmem
        refine ⟨w :: pre, post, by rw [heq]; rfl, ?_⟩
        intro x hx
        rcases List.mem_cons.mp hx with rfl | hmem2
        · exact fun he => hr (he ▸ List.mem_cons_self _ _)
        · exact hpre x hmem2

theorem dedupPairwise {key : List Char → List Char} :
    ∀ (l seen : List (List Char)),
      List.Pairwise (fun a b => key a ≠ key b) (dedupByAux key seen l) := by
  intro l
  induction l with
  | nil => intro seen; simp [dedupByAux]
  | cons w ws ih =>
    intro seen
    rw [dedupByAux]
    by_cases hc : key w ∈ seen
    · rw [if_pos hc]; exact ih seen
    · rw [if_neg hc]
      refine List.Pairwise.cons ?_ (ih (key w :: seen))
      intro y hy
      have := dedupNotSeen ws (key w :: seen) y hy
      exact fun he => this (he ▸ List.mem_cons_self _ _)

theorem dedupCover {key : List Char → List Char} :
    ∀ (l seen : List (List Char)) (x : List Char), x ∈ l → key x ∉ seen →
      ∃ r ∈ dedupByAux key seen l, key r = key x := by
  intro l
  induction l with
  | nil => intro seen x hx; simp at hx
  | cons w ws ih =>
    intro seen x hx hseen
    rw [dedupByAux]
    by_cases hc : key w ∈ seen
    · rw [if_pos hc]
      rcases List.mem_cons.mp hx with rfl | hmem
      · exact absurd hc hseen
      · exact ih seen x hmem hseen
    · rw [if_neg hc]
      rcases List.mem_cons.mp hx with rfl | hmem
      · exact ⟨x, List.mem_cons_self _ _, rfl⟩
      · by_cases hkey : key x = key w
        · exact ⟨w, List.mem_cons_self _ _, hkey.symm⟩
        · have hnot : key x ∉ key w :: seen := by
            intro hmem2
            rcases List.mem_cons.mp hmem2 with he | hs
            · exact hkey he
            · exact hseen hs
          obtain ⟨r, hr, hkr⟩ := ih (key w :: seen) x hmem hnot
          exact ⟨r, List.mem_cons_of_mem _ hr, hkr⟩

theorem dedupMemSource {key : List Char → List Char} {l : List (List Char)}
    {r : List Char} (h : r ∈ dedupBy key l) : r ∈ l := by
  obtain ⟨pre, post, heq, -⟩ := dedupFirstSplit l [] r h
  rw [heq]
  exact List.mem_append_right _ (List.mem_cons_self _ _)

theorem memDedupId {l : List (List Char)} {x : List Char} (hx : x ∈ l) :
    x ∈ dedupBy id l := by
  obtain ⟨r, hr, hkr⟩ := dedupCover l [] x hx (by simp)
  have : r = x := hkr
  exact this ▸ hr

theorem dedupNilIff {key : List Char → List Char} {l : List (List Char)} :
    dedupBy key l = [] ↔ l = [] := by
  cases l with
  | nil => simp [dedupBy, dedupByAux]
  | cons w ws =>
    simp only [dedupBy, dedupByAux]
    rw [if_neg (by simp)]
    simp

/-! ### Matcher soundness -/

theorem lastOCons (prev : Option Char) (c : Char) (pre : List Char) :
    lastO prev (c :: pre) = lastO (some c) pre := by
  cases pre with
  | nil => simp [lastO]
  | cons d ds =>
    simp only [lastO, List.getLast?_cons_cons]
    cases h : (d :: ds).getLast? with
    | some e => rfl
    | none => simp at h

theorem hitAtNeNil {wt pt : List (List Char)} {prev : Option Char} {s : List Char}
    (h : HitAt wt pt prev s) : s ≠ [] := by
  obtain ⟨pre, occ, post, heq, hne, -⟩ := h
  intro hnil
  rw [hnil] at heq
  have hlen := congrArg List.length heq
  simp [List.length_append] at hlen
  exact hne (List.length_eq_zero.mp (by omega))

theorem tryWordAtSome {wt : List (List Char)} {prev : Option Char} {s m : List Char}
    (h : tryWordAt wt prev s = some m) :
    boundaryOk prev = true ∧ ∃ w ∈ wt, ciStarts w s = true ∧
      boundaryOk (s.drop w.length).head? = true ∧ m = s.take w.length := by
  unfold tryWordAt at h
  by_cases hb : boundaryOk prev = true
  · rw [if_pos hb] at h
    obtain ⟨w, hw, hfw⟩ := firstHitSomeEx h
    by_cases hc : (ciStarts w s && boundaryOk (s.drop w.length).head?) = true
    · rw [if_pos hc] at hfw
      rw [Bool.and_eq_true] at hc
      exact ⟨hb, w, hw, hc.1, hc.2, (Option.some.inj hfw).symm⟩
    · rw [if_neg hc] at hfw
      exact absurd hfw (by simp)
  · rw [if_neg hb] at h
    exact absurd h (by simp)

theorem tryPhraseAtSome {pt : List (List Char)} {s m : List Char}
    (h : tryPhraseAt pt s = some m) :
    ∃ p ∈ pt, ciStarts p s = true ∧ m = s.take p.length := by
  unfold tryPhraseAt at h
  obtain ⟨p, hp, hfp⟩ := firstHitSomeEx h
  by_cases hc : ciStarts p s = true
  · rw [if_pos hc] at hfp
    exact ⟨p, hp, hc, (Option.some.inj hfp).symm⟩
  · rw [if_neg hc] at hfp
    exact absurd hfp (by simp)

theorem tryAtSomeHit {wt pt : List (List Char)} (hwt : ∀ w ∈ wt, w ≠ [])
    (hpt : ∀ p ∈ pt, p ≠ []) {prev : Option Char} {s m : List Char}
    (h : tryAt wt pt prev s = some m) : HitAt wt pt prev s := by
  unfold tryAt at h
  cases hword : tryWordAt wt prev s with
  | some m' =>
    obtain ⟨hb, w, hmem, hci, hnext, -⟩ := tryWordAtSome hword
    obtain ⟨hciEq, hle⟩ := ciStartsTake hci
    refine ⟨[], s.take w.length, s.drop w.length, by simp, ?_,
      Or.inl ⟨w, hmem, hciEq, by simpa [lastO] using hb, hnext⟩⟩
    intro hnil
    have hlen := ciEqLength hciEq
    rw [hnil] at hlen
    exact hwt w hmem (List.eq_nil_of_length_eq_zero hlen.symm)
  | none =>
    rw [hword] at h
    simp only at h
    obtain ⟨p, hmem, hci, -⟩ := tryPhraseAtSome h
    obtain ⟨hciEq, hle⟩ := ciStartsTake hci
    refine ⟨[], s.take p.length, s.drop p.length, by simp, ?_,
      Or.inr ⟨p, hmem, hciEq⟩⟩
    intro hnil
    have hlen := ciEqLength hciEq
    rw [hnil] at hlen
    exact hpt p hmem (List.eq_nil_of_length_eq_zero hlen.symm)

theorem hitAtCons {wt pt : List (List Char)} {c : Char} {rest : List Char}
    {prev : Option Char} (h : HitAt wt pt (some c) rest) :
    HitAt wt pt prev (c :: rest) := by
  obtain ⟨pre, occ, post, heq, hne, hcase⟩ := h
  refine ⟨c :: pre, occ, post, by simp [heq], hne, ?_⟩
  rcases hcase with ⟨w, hw, hci, hb, hpost⟩ | hph
  · exact Or.inl ⟨w, hw, hci, by rwa [lastOCons], hpost⟩
  · exact Or.inr hph

theorem scanAuxSound {wt pt : List (List Char)} (hwt : ∀ w ∈ wt, w ≠ [])
    (hpt : ∀ p ∈ pt, p ≠ []) :
    ∀ (fuel : Nat) (prev : Option Char) (s : List Char),
      scanAux wt pt fuel prev s ≠ [] → HitAt wt pt prev s := by
  intro fuel
  induction fuel with
  | zero => intro prev s h; simp [scanAux] at h
  | succ n ih =>
    intro prev s h
    cases s with
    | nil => simp [scanAux] at h
    | cons c rest =>
      cases htry : tryAt wt pt prev (c :: rest) with
      | none =>
        simp only [scanAux, htry] at h
        exact hitAtCons (ih (some c) rest h)
      | some m => exact tryAtSomeHit hwt hpt htry

/-! ### Matcher completeness -/

theorem tryAtWordHit {wt pt : List (List Char)} {prev : Option Char}
    {w occ post : List Char} (hw : w ∈ wt) (hci : ciEq occ w)
    (hb : boundaryOk prev = true) (hpost : boundaryOk post.head? = true) :
    tryAt wt pt prev (occ ++ post) ≠ none := by
  unfold tryAt
  cases hword : tryWordAt wt prev (occ ++ post) with
  | some m => simp
  | none =>
    exfalso
    unfold tryWordAt at hword
    rw [if_pos hb] at hword
    have hcs : ciStarts w (occ ++ post) = true := ciStartsOfCiEq post hci
    have hlen : occ.length = w.length := ciEqLength hci
    have hdrop : (occ ++ post).drop w.length = post := by
      rw [← hlen]
      exact List.drop_left _ _
    have hf : (if ciStarts w (occ ++ post) && boundaryOk ((occ ++ post).drop w.length).head?
        then some ((occ ++ post).take w.length) else none) =
        some ((occ ++ post).take w.length) := by
      rw [if_pos]
      simp [hcs, hdrop, hpost]
    exact firstHitNeNone hw hf hword

theorem tryAtPhraseHit {wt pt : List (List Char)} {prev : Option Char}
    {p occ post : List Char} (hp : p ∈ pt) (hci : ciEq occ p) :
    tryAt wt pt prev (occ ++ post) ≠ none := by
  unfold tryAt
  cases hword : tryWordAt wt prev (occ ++ post) with
  | some m => simp
  | none =>
    show tryPhraseAt pt (occ ++ post) ≠ none
    have hcs : ciStarts p (occ ++ post) = true := ciStartsOfCiEq post hci
    have hf : (if ciStarts p (occ ++ post) then some ((occ ++ post).take p.length)
        else none) = some ((occ ++ post).take p.length) := by
      rw [if_pos hcs]
    exact firstHitNeNone hp hf

theorem scanAuxComplete {wt pt : List (List Char)} :
    ∀ (fuel : Nat) (prev : Option Char) (s : List Char), s.length ≤ fuel →
      HitAt wt pt prev s → scanAux wt pt fuel prev s ≠ [] := by
  intro fuel
  induction fuel with
  | zero =>
    intro prev s hlen hhit
    exact absurd (List.length_eq_zero.mp (Nat.le_zero.mp hlen)) (hitAtNeNil hhit)
  | succ n ih =>
    intro prev s hlen hhit
    cases s with
    | nil => exact absurd rfl (hitAtNeNil hhit)
    | cons c rest =>
      cases htry : tryAt wt pt prev (c :: rest) with
      | some m =>
        simp only [scanAux, htry]
        split <;> simp
      | none =>
        simp only [scanAux, htry]
        apply ih (some c) rest (by simpa using hlen)
        obtain ⟨pre, occ, post, heq, hne, hcase⟩ := hhit
        cases pre with
        | nil =>
          exfalso
          simp only [List.nil_append] at heq
          rw [heq] at htry
          rcases hcase with ⟨w, hw, hci, hb, hpost⟩ | ⟨p, hp, hci⟩
          · exact tryAtWordHit hw hci (by simpa [lastO] using hb) hpost htry
          · exact tryAtPhraseHit hp hci htry
        | cons c' pre' =>
          have h2 : c :: rest = c' :: (pre' ++ occ ++ post) := by simpa using heq
          obtain ⟨he, hrest⟩ := List.cons_eq_cons.mp h2
          subst he
          refine ⟨pre', occ, post, hrest, hne, ?_⟩
          rcases hcase with ⟨w, hw, hci, hb, hpost⟩ | hph
          · exact Or.inl ⟨w, hw, hci, by rwa [lastOCons] at hb, hpost⟩
          · exact Or.inr hph

theorem scanMatchesSound {wt pt : List (List Char)} (hwt : ∀ w ∈ wt, w ≠ [])
    (hpt : ∀ p ∈ pt, p ≠ []) {s : List Char} (h : scanMatches wt pt s ≠ []) :
    HitAt wt pt none s :=
  scanAuxSound hwt hpt s.length none s h

theorem scanMatchesComplete {wt pt : List (List Char)} {s : List Char}
    (h : HitAt wt pt none s) : scanMatches wt pt s ≠ [] :=
  scanAuxComplete s.length none s (Nat.le_refl _) h

/-! ### Pattern-compilation lemmas -/

theorem memCollectWord (lexicon : Lexicon) :
    ∀ (cats : List String) (t : List Char),
      t ∈ (collectTerms lexicon cats).1 ↔
        ∃ cat ∈ cats, t ∈ lexGet lexicon cat ∧
          (!t.isEmpty && isAsciiTerm t && !t.contains ' ') = true := by
  intro cats
  induction cats with
  | nil => intro t; simp [collectTerms]
  | cons cat cats ih =>
    intro t
    simp only [collectTerms, List.mem_append, List.mem_filter, ih]
    constructor
    · rintro (⟨hmem, hcond⟩ | ⟨c, hc, hmem, hcond⟩)
      · exact ⟨cat, List.mem_cons_self _ _, hmem, hcond⟩
      · exact ⟨c, List.mem_cons_of_mem _ hc, hmem, hcond⟩
    · rintro ⟨c, hc, hmem, hcond⟩
      rcases List.mem_cons.mp hc with rfl | hc'
      · exact Or.inl ⟨hmem, hcond⟩
      · exact Or.inr ⟨c, hc', hmem, hcond⟩

theorem memCollectPhrase (lexicon : Lexicon) :
    ∀ (cats : List String) (t : List Char),
      t ∈ (collectTerms lexicon cats).2 ↔
        ∃ cat ∈ cats, t ∈ lexGet lexicon cat ∧
          (!t.isEmpty && isAsciiTerm t && t.contains ' ') = true := by
  intro cats
  induction cats with
  | nil => intro t; simp [collectTerms]
  | cons cat cats ih =>
    intro t
    simp only [collectTerms, List.mem_append, List.mem_filter, ih]
    constructor
    · rintro (⟨hmem, hcond⟩ | ⟨c, hc, hmem, hcond⟩)
      · exact ⟨cat, List.mem_cons_self _ _, hmem, hcond⟩
      · exact ⟨c, List.mem_cons_of_mem _ hc, hmem, hcond⟩
    · rintro ⟨c, hc, hmem, hcond⟩
      rcases List.mem_cons.mp hc with rfl | hc'
      · exact Or.inl ⟨hmem, hcond⟩
      · exact Or.inr ⟨c, hc', hmem, hcond⟩

theorem buildPatternWord {lexicon : Lexicon} {cats : List String} {t : List Char}
    (h : t ∈ (collectTerms lexicon cats).1) :
    ∃ wt pt, buildPattern lexicon cats = some (wt, pt) ∧ t ∈ wt := by
  have hmem : t ∈ dedupBy id (collectTerms lexicon cats).1 := memDedupId h
  refine ⟨dedupBy id (collectTerms lexicon cats).1,
    dedupBy id (collectTerms lexicon cats).2, ?_, hmem⟩
  simp only [buildPattern]
  rw [if_neg]
  intro hcond
  rw [Bool.and_eq_true] at hcond
  rw [List.isEmpty_iff.mp hcond.1] at hmem
  simp at hmem

theorem buildPatternPhrase {lexicon : Lexicon} {cats : List String} {t : List Char}
    (h : t ∈ (collectTerms lexicon cats).2) :
    ∃ wt pt, buildPattern lexicon cats = some (wt, pt) ∧ t ∈ pt := by
  have hmem : t ∈ dedupBy id (collectTerms lexicon cats).2 := memDedupId h
  refine ⟨dedupBy id (collectTerms lexicon cats).1,
    dedupBy id (collectTerms lexicon cats).2, ?_, hmem⟩
  simp only [buildPattern]
  rw [if_neg]
  intro hcond
  rw [Bool.and_eq_true] at hcond
  rw [List.isEmpty_iff.mp hcond.2] at hmem
  simp at hmem

theorem buildPatternSomeInv {lexicon : Lexicon} {cats : List String}
    {wt pt : List (List Char)} (h : buildPattern lexicon cats = some (wt, pt)) :
    wt = dedupBy id (collectTerms lexicon cats).1 ∧
      pt = dedupBy id (collectTerms lexicon cats).2 := by
  simp only [buildPattern] at h
  split at h
  · exact absurd h (by simp)
  · have h2 := Option.some.inj h
    exact ⟨(Prod.ext_iff.mp h2.symm).1, (Prod.ext_iff.mp h2.symm).2⟩

theorem buildPatternTermsNeNil {lexicon : Lexicon} {cats : List String}
    {wt pt : List (List Char)} (h : buildPattern lexicon cats = some (wt, pt)) :
    (∀ w ∈ wt, w ≠ []) ∧ (∀ p ∈ pt, p ≠ []) := by
  obtain ⟨hw, hp⟩ := buildPatternSomeInv h
  constructor
  · intro w hmem
    rw [hw] at hmem
    obtain ⟨-, -, -, hcond⟩ := (memCollectWord lexicon cats w).mp (dedupMemSource hmem)
    rw [Bool.and_eq_true, Bool.and_eq_true] at hcond
    intro hnil
    rw [hnil] at hcond
    simp at hcond
  · intro p hmem
    rw [hp] at hmem
    obtain ⟨-, -, -, hcond⟩ := (memCollectPhrase lexicon cats p).mp (dedupMemSource hmem)
    rw [Bool.and_eq_true, Bool.and_eq_true] at hcond
    intro hnil
    rw [hnil] at hcond
    simp at hcond

/-! ### Tier matcher bridges -/

theorem lastONone (pre : List Char) : lastO none pre = pre.getLast? := by
  unfold lastO
  cases pre.getLast? <;> rfl

theorem findEqByCats (lexicon : Lexicon) (policy : String) (cats : List String)
    (hne : policy ≠ "none")
    (hget : assocGet (policyPatterns lexicon) (lowerStr policy) =
      some (buildPattern lexicon cats)) (text : List Char) :
    findSensitiveWords lexicon policy text = findByCats lexicon cats text := by
  unfold findSensitiveWords rawMatches findByCats
  by_cases ht : text.isEmpty
  · rw [if_pos ht, if_pos ht]
    rfl
  · rw [if_neg ht, if_neg ht, if_neg hne, hget]
    cases hb : buildPattern lexicon cats with
    | none => rfl
    | some pat => rfl

theorem findByCatsMono {lexicon : Lexicon} {cats1 cats2 : List String}
    (hsub : ∀ c ∈ cats1, c ∈ cats2) (text : List Char)
    (h : findByCats lexicon cats1 text ≠ []) : findByCats lexicon cats2 text ≠ [] := by
  unfold findByCats at h ⊢
  by_cases ht : text.isEmpty
  · rw [if_pos ht] at h
    exact absurd rfl h
  · rw [if_neg ht] at h ⊢
    cases hb1 : buildPattern lexicon cats1 with
    | none => rw [hb1] at h; exact absurd rfl h
    | some pat1 =>
      obtain ⟨wt1, pt1⟩ := pat1
      rw [hb1] at h
      have h2 : dedupBy (fun w => w.map asciiLower) (scanMatches wt1 pt1 text) ≠ [] := h
      have hscan1 : scanMatches wt1 pt1 text ≠ [] := by
        intro hnil
        rw [hnil] at h2
        exact h2 rfl
      obtain ⟨hw1, hp1⟩ := buildPatternTermsNeNil hb1
      obtain ⟨pre, occ, post, heq, hne2, hcase⟩ := scanMatchesSound hw1 hp1 hscan1
      obtain ⟨hwinv, hpinv⟩ := buildPatternSomeInv hb1
      rcases hcase with ⟨w, hwmem, hci, hbnd, hpost⟩ | ⟨p, hpmem, hci⟩
      · have hwc1 : w ∈ (collectTerms lexicon cats1).1 := by
          rw [hwinv] at hwmem
          exact dedupMemSource hwmem
        have hwc2 : w ∈ (collectTerms lexicon cats2).1 := by
          obtain ⟨c, hc, hm, hcond⟩ := (memCollectWord lexicon cats1 w).mp hwc1
          exact (memCollectWord lexicon cats2 w).mpr ⟨c, hsub c hc, hm, hcond⟩
        obtain ⟨wt2, pt2, hb2, hw2⟩ := buildPatternWord hwc2
        rw [hb2]
        have hhit2 : HitAt wt2 pt2 none text :=
          ⟨pre, occ, post, heq, hne2, Or.inl ⟨w, hw2, hci, hbnd, hpost⟩⟩
        show dedupBy (fun w => w.map asciiLower) (scanMatches wt2 pt2 text) ≠ []
        intro hnil
        exact scanMatchesComplete hhit2 (dedupNilIff.mp hnil)
      · have hpc1 : p ∈ (collectTerms lexicon cats1).2 := by
          rw [hpinv] at hpmem
          exact dedupMemSource hpmem
        have hpc2 : p ∈ (collectTerms lexicon cats2).2 := by
          obtain ⟨c, hc, hm, hcond⟩ := (memCollectPhrase lexicon cats1 p).mp hpc1
          exact (memCollectPhrase lexicon cats2 p).mpr ⟨c, hsub c hc, hm, hcond⟩
        obtain ⟨wt2, pt2, hb2, hp2⟩ := buildPatternPhrase hpc2
        rw [hb2]
        have hhit2 : HitAt wt2 pt2 none text :=
          ⟨pre, occ, post, heq, hne2, Or.inr ⟨p, hp2, hci⟩⟩
        show dedupBy (fun w => w.map asciiLower) (scanMatches wt2 pt2 text) ≠ []
        intro hnil
        exact scanMatchesComplete hhit2 (dedupNilIff.mp hnil)

theorem findLiteEq (lexicon : Lexicon) (text : List Char) :
    findSensitiveWords lexicon "lite" text = findByCats lexicon liteCats text := by
  apply findEqByCats lexicon "lite" liteCats (by decide)
  rw [show lowerStr "lite" = "lite" from by decide]
  simp [policyPatterns, assocGet]

theorem findFullEq (lexicon : Lexicon) (text : List Char) :
    findSensitiveWords lexicon "full" text = findByCats lexicon fullCats text := by
  apply findEqByCats lexicon "full" fullCats (by decide)
  rw [show lowerStr "full" = "full" from by decide]
  simp [policyPatterns, assocGet]

/-! ### Claim C5 -/

/-- Claim C5: for any two tiers whose activated category sets are ordered by
inclusion, any text with at least one match under the smaller tier's matcher
also has at least one match under the larger tier's matcher; in particular a
`lite` match implies a `full` match. -/
theorem claim_C5 (lexicon : Lexicon) (text : List Char) (cats1 cats2 : List String)
    (hsub : ∀ c ∈ cats1, c ∈ cats2) :
    (findByCats lexicon cats1 text ≠ [] → findByCats lexicon cats2 text ≠ []) ∧
    (findSensitiveWords lexicon "lite" text ≠ [] →
      findSensitiveWords lexicon "full" text ≠ []) := by
  refine ⟨findByCatsMono hsub text, ?_⟩
  intro h
  rw [findFullEq]
  rw [findLiteEq] at h
  exact findByCatsMono (by decide : ∀ c ∈ liteCats, c ∈ fullCats) text h

/-- Witness for C5: a `lite` match on concrete data propagates to `full`. -/
theorem claim_C5_witness :
    findSensitiveWords [("legacy_lite", ["cat".toList])] "full" "a cat sat".toList ≠ [] :=
  (claim_C5 [("legacy_lite", ["cat".toList])] "a cat sat".toList liteCats fullCats
    (by decide)).2 (by decide)

/-! ### Claim C6 -/

/-- Claim C6: a matcher built from single-token terms only matches where both
adjacent characters (when present) are not alphanumeric-or-underscore; and
concretely, term "cat" does not match inside "category" but matches inside
"a cat sat". -/
theorem claim_C6 :
    (∀ (wt : List (List Char)) (text : List Char), (∀ w ∈ wt, w ≠ []) →
      scanMatches wt [] text ≠ [] →
      ∃ pre occ post, text = pre ++ occ ++ post ∧ occ ≠ [] ∧
        (∃ w ∈ wt, ciEq occ w) ∧ boundaryOk pre.getLast? = true ∧
        boundaryOk post.head? = true) ∧
    findSensitiveWords [("legacy_lite", ["cat".toList])] "lite" "category".toList = [] ∧
    findSensitiveWords [("legacy_lite", ["cat".toList])] "lite" "a cat sat".toList =
      ["cat".toList] := by
  refine ⟨?_, by decide, by decide⟩
  intro wt text hwt hscan
  obtain ⟨pre, occ, post, heq, hne, hcase⟩ := scanMatchesSound hwt (by simp) hscan
  rcases hcase with ⟨w, hw, hci, hb, hpost⟩ | ⟨p, hp, -⟩
  · rw [lastONone] at hb
    exact ⟨pre, occ, post, heq, hne, ⟨w, hw, hci⟩, hb, hpost⟩
  · simp at hp

/-- Witness for C6: the boundary decomposition exists for "cat" in
"a cat sat". -/
theorem claim_C6_witness :
    ∃ pre occ post, "a cat sat".toList = pre ++ occ ++ post ∧ occ ≠ [] ∧
      (∃ w ∈ [("cat".toList)], ciEq occ w) ∧ boundaryOk pre.getLast? = true ∧
      boundaryOk post.head? = true :=
  claim_C6.1 ["cat".toList] "a cat sat".toList (by decide) (by decide)

/-! ### Claim C7 -/

/-- Claim C7: the reported match list is deduplicated by ASCII-case-folded
term — no two reported entries fold to the same key, and each reported entry
is the first raw match with its key (so it carries the casing of the first
occurrence in the text); concretely, "Foo and foo" with term "foo" reports
exactly ["Foo"]. -/
theorem claim_C7 :
    (∀ (lexicon : Lexicon) (policy : String) (text : List Char),
      List.Pairwise (fun a b => a.map asciiLower ≠ b.map asciiLower)
        (findSensitiveWords lexicon policy text) ∧
      (∀ r ∈ findSensitiveWords lexicon policy text,
        ∃ pre post, rawMatches lexicon policy text = pre ++ r :: post ∧
          ∀ x ∈ pre, x.map asciiLower ≠ r.map asciiLower)) ∧
    findSensitiveWords [("legacy_lite", ["foo".toList])] "lite" "Foo and foo".toList =
      ["Foo".toList] := by
  refine ⟨?_, by decide⟩
  intro lexicon policy text
  constructor
  · exact dedupPairwise (rawMatches lexicon policy text) []
  · intro r hr
    exact dedupFirstSplit (rawMatches lexicon policy text) [] r hr

/-- Witness for C7 at the "Foo and foo" example. -/
theorem claim_C7_witness :
    List.Pairwise (fun a b => a.map asciiLower ≠ b.map asciiLower)
      (findSensitiveWords [("legacy_lite", ["foo".toList])] "lite"
        "Foo and foo".toList) ∧
    ∃ pre post,
      rawMatches [("legacy_lite", ["foo".toList])] "lite" "Foo and foo".toList =
        pre ++ "Foo".toList :: post ∧
      ∀ x ∈ pre, x.map asciiLower ≠ "Foo".toList.map asciiLower :=
  ⟨(claim_C7.1 [("legacy_lite", ["foo".toList])] "lite" "Foo and foo".toList).1,
   (claim_C7.1 [("legacy_lite", ["foo".toList])] "lite" "Foo and foo".toList).2
     "Foo".toList (by decide)⟩

/-! ### Claim C1 -/

/-- Claim C1 counterexample: the lexicon category "custom" is not in the
fixed category set of the `full` tier, so its ASCII term "cat", although it
occurs in the text with clear word boundaries, is not matched under `full` —
`full` does not activate the union of all categories in the lexicon. -/
theorem claim_C1_counterexample :
    ("custom", ["cat".toList]) ∈ ([("custom", ["cat".toList])] : Lexicon) ∧
    "cat".toList ≠ [] ∧ isAsciiTerm "cat".toList = true ∧
    ValidWordOcc "cat".toList "a cat sat".toList ∧
    findSensitiveWords [("custom", ["cat".toList])] "full" "a cat sat".toList = [] :=
  ⟨by decide, by decide, by decide,
   ⟨"a ".toList, "cat".toList, " sat".toList, by decide, by decide, by decide, by decide⟩,
   by decide⟩

/-- Claim C1 (amended): the `full` tier activates the fixed category set
`fullCats` written in `__init__` (not every category of the lexicon): every
non-empty ASCII term of a lexicon category belonging to that set is compiled
into `full`'s matcher — as a word term or phrase term according to whether it
contains a space — and a text containing such a term with the corresponding
boundary/substring conditions is matched under the `full` tier. -/
theorem claim_C1_amended (lexicon : Lexicon) (cat : String) (term text : List Char)
    (hcat : cat ∈ fullCats) (hterm : term ∈ lexGet lexicon cat)
    (hne : term ≠ []) (hascii : isAsciiTerm term = true) :
    (term.contains ' ' = false → ValidWordOcc term text →
      findSensitiveWords lexicon "full" text ≠ []) ∧
    (term.contains ' ' = true → CiSubOcc term text →
      findSensitiveWords lexicon "full" text ≠ []) := by
  have hie : term.isEmpty = false := by
    cases term with
    | nil => exact absurd rfl hne
    | cons a as => rfl
  constructor
  · intro hsp hocc
    obtain ⟨pre, occ, post, heq, hci, hbpre, hbpost⟩ := hocc
    have hocc_ne : occ ≠ [] := by
      intro h0
      have hl := ciEqLength hci
      rw [h0] at hl
      exact hne (List.eq_nil_of_length_eq_zero hl.symm)
    have htext : ¬ text.isEmpty = true := by
      simp only [List.isEmpty_iff]
      intro h0
      rw [heq] at h0
      have hl := congrArg List.length h0
      simp at hl
      exact hocc_ne hl.2.1
    rw [findFullEq]
    unfold findByCats
    rw [if_neg htext]
    have hcol : term ∈ (collectTerms lexicon fullCats).1 :=
      (memCollectWord lexicon fullCats term).mpr
        ⟨cat, hcat, hterm, by rw [hie, hascii, hsp]; rfl⟩
    obtain ⟨wt, pt, hb, hw⟩ := buildPatternWord hcol
    rw [hb]
    show dedupBy (fun w => w.map asciiLower) (scanMatches wt pt text) ≠ []
    have hhit : HitAt wt pt none text :=
      ⟨pre, occ, post, heq, hocc_ne, Or.inl ⟨term, hw, hci, by rwa [lastONone], hbpost⟩⟩
    intro hnil
    exact scanMatchesComplete hhit (dedupNilIff.mp hnil)
  · intro hsp hocc
    obtain ⟨pre, occ, post, heq, hci⟩ := hocc
    have hocc_ne : occ ≠ [] := by
      intro h0
      have hl := ciEqLength hci
      rw [h0] at hl
      exact hne (List.eq_nil_of_length_eq_zero hl.symm)
    have htext : ¬ text.isEmpty = true := by
      simp only [List.isEmpty_iff]
      intro h0
      rw [heq] at h0
      have hl := congrArg List.length h0
      simp at hl
      exact hocc_ne hl.2.1
    rw [findFullEq]
    unfold findByCats
    rw [if_neg htext]
    have hcol : term ∈ (collectTerms lexicon fullCats).2 :=
      (memCollectPhrase lexicon fullCats term).mpr
        ⟨cat, hcat, hterm, by rw [hie, hascii, hsp]; rfl⟩
    obtain ⟨wt, pt, hb, hp⟩ := buildPatternPhrase hcol
    rw [hb]
    show dedupBy (fun w => w.map asciiLower) (scanMatches wt pt text) ≠ []
    have hhit : HitAt wt pt none text :=
      ⟨pre, occ, post, heq, hocc_ne, Or.inr ⟨term, hp, hci⟩⟩
    intro hnil
    exact scanMatchesComplete hhit (dedupNilIff.mp hnil)

/-- Witness for C1 (amended): a term of the activated category "minors" is
matched under `full`. -/
theorem claim_C1_amended_witness :
    findSensitiveWords [("minors", ["cat".toList])] "full" "a cat sat".toList ≠ [] :=
  (claim_C1_amended [("minors", ["cat".toList])] "minors" "cat".toList
    "a cat sat".toList (by decide) (by decide) (by decide) (by decide)).1 (by decide)
    ⟨"a ".toList, "cat".toList, " sat".toList, by decide, by decide, by decide, by decide⟩

/-! ### Claim C3 -/

/-- Claim C3 counterexample: with multi-image mode on and two usable prompts
separated by no text at all, the emitted segment sequence contains two
adjacent prompt segments, so it is not alternating. -/
theorem claim_C3_counterexample :
    extractPrompt true "<提示词>p1</提示词><提示词>p2</提示词>".toList =
      ExtractResult.multi [Segment.prompt "p1".toList, Segment.prompt "p2".toList] ∧
    ¬ List.Chain' segAltRel
      [Segment.prompt "p1".toList, Segment.prompt "p2".toList] := by
  constructor
  · decide
  · intro h
    exact (List.chain'_cons.mp h).1 rfl

theorem scanTagsAuxLen : ∀ (fuel : Nat) (s : List Char),
    (scanTagsAux fuel s).1.length = (scanTagsAux fuel s).2.length + 1 := by
  intro fuel
  induction fuel with
  | zero => intro s; simp [scanTagsAux]
  | succ n ih =>
    intro s
    simp only [scanTagsAux]
    cases h1 : splitOnFirst openTagL s with
    | none => simp
    | some pr =>
      obtain ⟨pre, rest1⟩ := pr
      cases h2 : splitOnFirst closeTagL rest1 with
      | none => simp [h2]
      | some cr =>
        obtain ⟨content, rest2⟩ := cr
        simp [h2, ih rest2]

theorem scanTagsLen (s : List Char) :
    (scanTags s).1.length = (scanTags s).2.length + 1 :=
  scanTagsAuxLen s.length s

theorem walkNeNil (p0 : List Char) (rest : List (List Char)) (q : List Char)
    (qs : List (List Char)) : walkSegments (p0 :: rest) (q :: qs) ≠ [] := by
  simp only [walkSegments]
  split <;> simp

theorem walkChain : ∀ (qs parts : List (List Char)),
    parts.length = qs.length + 1 →
    (∀ p ∈ parts.dropLast.tail, (pyTrim p).isEmpty = false) →
    List.Chain' segAltRel (walkSegments parts qs) := by
  intro qs
  induction qs with
  | nil =>
    intro parts hlen hint
    cases parts with
    | nil => simp at hlen
    | cons p0 rest =>
      cases rest with
      | nil =>
        simp only [walkSegments]
        split <;> simp [walkSegments]
      | cons r rest2 => simp at hlen
  | cons q qs' ih =>
    intro parts hlen hint
    cases parts with
    | nil => simp at hlen
    | cons p0 parts' =>
      have hlen' : parts'.length = qs'.length + 1 := by simpa using hlen
      have hne : parts' ≠ [] := by
        intro h0
        rw [h0] at hlen'
        simp at hlen'
      have hchainW : List.Chain' segAltRel (walkSegments parts' qs') := by
        apply ih parts' hlen'
        intro p hp
        apply hint
        rw [List.dropLast_cons_of_ne_nil hne]
        exact memOfTail hp
      have hlink : List.Chain' segAltRel
          (Segment.prompt q :: walkSegments parts' qs') := by
        rw [List.chain'_cons']
        refine ⟨?_, hchainW⟩
        intro b hb
        cases parts' with
        | nil => simp [walkSegments] at hb
        | cons p1 parts'' =>
          cases qs' with
          | nil =>
            have h0 : parts'' = [] := by
              have h1 := hlen'
              simp at h1
              exact h1
            subst h0
            by_cases hemp : (pyTrim p1).isEmpty
            · simp [walkSegments, hemp] at hb
            · simp [walkSegments, hemp] at hb
              subst hb
              simp [segAltRel, Segment.isPromptSeg]
          | cons q' qs'' =>
            have hne2 : parts'' ≠ [] := by
              intro h0
              rw [h0] at hlen'
              simp at hlen'
            have hp1 : (pyTrim p1).isEmpty = false := by
              apply hint
              have hshape : (p0 :: p1 :: parts'').dropLast.tail =
                  p1 :: parts''.dropLast := by
                rw [List.dropLast_cons_of_ne_nil (by simp),
                  List.dropLast_cons_of_ne_nil hne2]
                rfl
              rw [hshape]
              exact List.mem_cons_self _ _
            simp [walkSegments, hp1] at hb
            subst hb
            simp [segAltRel, Segment.isPromptSeg]
      by_cases hemp : (pyTrim p0).isEmpty
      · have hstep : walkSegments (p0 :: parts') (q :: qs') =
            Segment.prompt q :: walkSegments parts' qs' := by
          simp [walkSegments, hemp]
        rw [hstep]
        exact hlink
      · have hstep : walkSegments (p0 :: parts') (q :: qs') =
            Segment.text (pyTrim p0) :: Segment.prompt q :: walkSegments parts' qs' := by
          simp [walkSegments, hemp]
        rw [hstep]
        exact List.chain'_cons.mpr ⟨by simp [segAltRel, Segment.isPromptSeg], hlink⟩

/-- Claim C3 (amended): with multi-image mode on and more than one usable
prompt, the segmenter splits on the tag boundaries and walks chunks and
prompts together as described; the resulting segment sequence is alternating
(no two adjacent segments of the same type, a trailing text segment allowed)
provided no captured region is dropped by cleaning and every chunk strictly
between two tags is non-empty after trimming — without those conditions
adjacent same-type segments can occur (see the counterexample). -/
theorem claim_C3_amended (fullText : List Char)
    (hkeep : (cleanedOf fullText).length = (scanTags fullText).2.length)
    (htwo : 2 ≤ (cleanedOf fullText).length)
    (hint : ∀ p ∈ (scanTags fullText).1.dropLast.tail, (pyTrim p).isEmpty = false) :
    extractPrompt true fullText =
      ExtractResult.multi (walkSegments (scanTags fullText).1 (cleanedOf fullText)) ∧
    List.Chain' segAltRel (walkSegments (scanTags fullText).1 (cleanedOf fullText)) := by
  have hlen : (scanTags fullText).1.length = (cleanedOf fullText).length + 1 := by
    rw [hkeep]
    exact scanTagsLen fullText
  have hchain := walkChain (cleanedOf fullText) (scanTags fullText).1 hlen hint
  refine ⟨?_, hchain⟩
  have hcaps : ¬ (scanTags fullText).2.isEmpty = true := by
    simp only [List.isEmpty_iff]
    intro h0
    have h1 : (cleanedOf fullText).length = 0 := by
      rw [h0] at hkeep
      simpa using hkeep
    omega
  cases hcl : cleanedOf fullText with
  | nil => rw [hcl] at htwo; simp at htwo
  | cons a rest =>
    cases rest with
    | nil => rw [hcl] at htwo; simp at htwo
    | cons b rest2 =>
      cases hparts : (scanTags fullText).1 with
      | nil => rw [hparts] at hlen; simp at hlen
      | cons p0 prest =>
        have hwne := walkNeNil p0 prest a (b :: rest2)
        have hwneF : (walkSegments (p0 :: prest) (a :: b :: rest2)).isEmpty = false := by
          cases hW : walkSegments (p0 :: prest) (a :: b :: rest2) with
          | nil => exact absurd hW hwne
          | cons s ss => rfl
        simp only [extractPrompt]
        rw [hcl, hparts]
        rw [if_neg hcaps]
        simp [hwneF]

/-- Witness for C3 (amended): on the spec's two-prompt example the segmenter
produces the alternating segment list. -/
theorem claim_C3_amended_witness :
    extractPrompt true "intro <提示词>p1</提示词> middle <提示词>p2</提示词> tail".toList =
      ExtractResult.multi
        (walkSegments
          (scanTags "intro <提示词>p1</提示词> middle <提示词>p2</提示词> tail".toList).1
          (cleanedOf "intro <提示词>p1</提示词> middle <提示词>p2</提示词> tail".toList)) ∧
    List.Chain' segAltRel
      (walkSegments
        (scanTags "intro <提示词>p1</提示词> middle <提示词>p2</提示词> tail".toList).1
        (cleanedOf "intro <提示词>p1</提示词> middle <提示词>p2</提示词> tail".toList)) :=
  claim_C3_amended "intro <提示词>p1</提示词> middle <提示词>p2</提示词> tail".toList
    (by decide) (by decide) (by decide)
